import Mathlib

/-!
Verification of the Forth-like interpreter in `src/forth/src/forth.rs` and the
wasm boundary in `src/forth/src/lib.rs`.

Modelling conventions:
* `Value = i32` is modelled as `Int` together with an explicit two's-complement
  reduction `wrap32` where the 32-bit width matters.  `+ - *` on `i32` wrap in
  the release (wasm) build, which is what `wrap32` captures; `/` rounds toward
  zero (`Int.tdiv`) and `i32::MIN / -1` panics in every build mode.
* Rust panics (`unwrap` on `None`, arithmetic overflow of division, index out
  of bounds) are modelled by an explicit `abort` outcome; they carry no state
  because the process dies.
* `&mut self` methods returning `Result<(), Error>` become functions returning
  the updated state together with an optional error; mutations performed before
  an early `return Err(..)` are visible in the returned state, exactly as the
  borrowed Rust state keeps them.
* The operand stack `Vec<Value>` is a `List` with the head as top of stack;
  the token queue `VecDeque<Token>` is a `List` with the head as front.
* The evaluation loop `while self.tokens.len() > 0` is given explicit fuel;
  `none` means the loop did not finish within the fuel (or a panic occurred).
-/

namespace WasmForth

/-- `Value = i32`, modelled as `Int` with explicit 32-bit reduction. -/
abbrev Value := Int

/-- Smallest `i32` value, `-2^31`. -/
def i32min : Int := -(2 ^ 31)

/-- Largest `i32` value, `2^31 - 1`. -/
def i32max : Int := 2 ^ 31 - 1

/-- Two's-complement reduction to the 32-bit signed range: the value produced
by wrapping `i32` arithmetic in the release (wasm) build. -/
def wrap32 (x : Int) : Int := (x + 2 ^ 31) % 2 ^ 32 - 2 ^ 31

/-- `enum Token` from forth.rs. -/
inductive Token where
  | word : String → Token
  | wordIndex : Nat → Token
  | number : Value → Token
deriving DecidableEq

/-- `enum Error` from forth.rs. -/
inductive Error where
  | divisionByZero
  | stackUnderflow
  | unknownWord
  | invalidWord
deriving DecidableEq

/-- The closed set of executor functions that are ever stored in a `Word`'s
`exec` field: the seven `do_*` functions of forth.rs.  The source stores
function pointers; since only these seven functions are ever used, the
dispatch is modelled as a tagged enumeration. -/
inductive Exec where
  | arith
  | dup
  | drop
  | swap
  | over
  | nop
  | expand
deriving DecidableEq

/-- `struct Word` from forth.rs: a name, a body (`data`), and an executor. -/
structure Word where
  name : String
  data : List Token
  exec : Exec
deriving DecidableEq

/-- `Word::new`: a built-in word with an empty body. -/
def Word.new (name : String) (exec : Exec) : Word := ⟨name, [], exec⟩

/-- `Word::new_compiled`: a user-defined word whose executor is `do_exec`. -/
def Word.new_compiled (name : String) (tokens : List Token) : Word :=
  ⟨name, tokens, Exec.expand⟩

/-- Outcome of one executor call: the updated stack and queue on success, the
(partially) updated stack and queue with the error on failure, or `abort` for
a Rust panic. -/
inductive ExecRes where
  | ok : List Value → List Token → ExecRes
  | err : List Value → List Token → Error → ExecRes
  | abort : ExecRes
deriving DecidableEq

/-- `do_nop` from forth.rs: always succeeds, no effect. -/
def do_nop (_w : Word) (stack : List Value) (tokens : List Token) : ExecRes :=
  ExecRes.ok stack tokens

/-- `do_arithmetic` from forth.rs.  The underflow check precedes the pops, so
the stack is unchanged on `StackUnderflow`; the zero check on the right
operand precedes the division, and both operands are already popped when
`DivisionByZero` is returned.  `i32::MIN / -1` overflows and panics; the
`unreachable!()` arm is a panic as well. -/
def do_arithmetic (w : Word) (stack : List Value) (tokens : List Token) : ExecRes :=
  match stack with
  | v2 :: v1 :: rest =>
    if w.name = "+" then ExecRes.ok (wrap32 (v1 + v2) :: rest) tokens
    else if w.name = "-" then ExecRes.ok (wrap32 (v1 - v2) :: rest) tokens
    else if w.name = "*" then ExecRes.ok (wrap32 (v1 * v2) :: rest) tokens
    else if w.name = "/" then
      if v2 = 0 then ExecRes.err rest tokens Error.divisionByZero
      else if v1 = i32min ∧ v2 = -1 then ExecRes.abort
      else ExecRes.ok (Int.tdiv v1 v2 :: rest) tokens
    else ExecRes.abort
  | _ => ExecRes.err stack tokens Error.stackUnderflow

/-- `do_dup` from forth.rs. -/
def do_dup (_w : Word) (stack : List Value) (tokens : List Token) : ExecRes :=
  match stack with
  | v :: rest => ExecRes.ok (v :: v :: rest) tokens
  | [] => ExecRes.err [] tokens Error.stackUnderflow

/-- `do_drop` from forth.rs. -/
def do_drop (_w : Word) (stack : List Value) (tokens : List Token) : ExecRes :=
  match stack with
  | _ :: rest => ExecRes.ok rest tokens
  | [] => ExecRes.err [] tokens Error.stackUnderflow

/-- `do_swap` from forth.rs: pops `v1` (top) then `v2`, pushes `v1` then `v2`. -/
def do_swap (_w : Word) (stack : List Value) (tokens : List Token) : ExecRes :=
  match stack with
  | v1 :: v2 :: rest => ExecRes.ok (v2 :: v1 :: rest) tokens
  | _ => ExecRes.err stack tokens Error.stackUnderflow

/-- `do_over` from forth.rs: pushes a copy of `stack[len - 2]`, the value one
below the top. -/
def do_over (_w : Word) (stack : List Value) (tokens : List Token) : ExecRes :=
  match stack with
  | v1 :: v2 :: rest => ExecRes.ok (v2 :: v1 :: v2 :: rest) tokens
  | _ => ExecRes.err stack tokens Error.stackUnderflow

/-- `do_exec` from forth.rs: pushes the word's body tokens to the front of the
queue, iterating the body in reverse so the first body token ends frontmost. -/
def do_exec (w : Word) (stack : List Value) (tokens : List Token) : ExecRes :=
  ExecRes.ok stack (w.data.reverse.foldl (fun q t => t :: q) tokens)

/-- Dispatch of the stored executor, the model of calling through the `exec`
function pointer. -/
def runExec : Exec → Word → List Value → List Token → ExecRes
  | Exec.arith => do_arithmetic
  | Exec.dup => do_dup
  | Exec.drop => do_drop
  | Exec.swap => do_swap
  | Exec.over => do_over
  | Exec.nop => do_nop
  | Exec.expand => do_exec

/-- `struct Forth` from forth.rs. -/
structure Forth where
  stack : List Value
  tokens : List Token
  words : List Word
deriving DecidableEq

/-- Inner loop of `Forth::lookup_word`: iterate the reversed word list with a
running iteration count `i`, returning `total - 1 - i` at the first name
match, exactly as the source's `rev().enumerate()` loop does. -/
def lookupGo (total : Nat) (name : String) : List Word → Nat → Option Nat
  | [], _ => none
  | w :: rest, i =>
    if w.name = name then some (total - 1 - i) else lookupGo total name rest (i + 1)

/-- `Forth::lookup_word` from forth.rs: scan the table from the highest index
downward, returning the first (hence highest) index whose name matches. -/
def lookup_word (ws : List Word) (name : String) : Option Nat :=
  lookupGo ws.length name ws.reverse 0

/-- The word table seeded by `Forth::new`: `+ - * /`, `DUP`, `DROP`, `SWAP`,
`OVER`, and the control word `:` bound to `do_nop`. -/
def builtinWords : List Word :=
  [Word.new "+" Exec.arith, Word.new "-" Exec.arith, Word.new "*" Exec.arith,
   Word.new "/" Exec.arith, Word.new "DUP" Exec.dup, Word.new "DROP" Exec.drop,
   Word.new "SWAP" Exec.swap, Word.new "OVER" Exec.over, Word.new ":" Exec.nop]

/-- `Forth::new` from forth.rs. -/
def Forth.new : Forth := ⟨[], [], builtinWords⟩

/-- `Forth::stack` from forth.rs: a snapshot of the stack in bottom-to-top
order (the `Vec` order, the reverse of the head-is-top list model). -/
def Forth.stackSnapshot (f : Forth) : List Value := f.stack.reverse

/-- Character class used by `parse` in forth.rs: `char::is_whitespace`, the
Unicode `White_Space` property, written out code point by code point. -/
def rust_is_whitespace (c : Char) : Bool :=
  let n := c.toNat
  n = 0x09 || n = 0x0A || n = 0x0B || n = 0x0C || n = 0x0D || n = 0x20 ||
  n = 0x85 || n = 0xA0 || n = 0x1680 || (0x2000 ≤ n && n ≤ 0x200A) ||
  n = 0x2028 || n = 0x2029 || n = 0x202F || n = 0x205F || n = 0x3000

/-- `char::is_ascii_control`: code points `0x00..=0x1F` and `0x7F`. -/
def rust_is_ascii_control (c : Char) : Bool :=
  c.toNat ≤ 0x1F || c.toNat = 0x7F

/-- The split predicate of `parse`: whitespace or ASCII control. -/
def isSep (c : Char) : Bool := rust_is_whitespace c || rust_is_ascii_control c

/-- Fragment extraction of `parse`: split on `isSep` and keep only non-empty
fragments, fused into one pass (`acc` holds the current fragment reversed). -/
def splitWords : List Char → List Char → List (List Char)
  | [], acc => if acc = [] then [] else [acc.reverse]
  | c :: cs, acc =>
    if isSep c then
      (if acc = [] then splitWords cs [] else acc.reverse :: splitWords cs [])
    else splitWords cs (c :: acc)

/-- Numeric value of an ASCII digit. -/
def digitVal (c : Char) : Nat := c.toNat - 48

/-- Accumulating loop of integer parsing: consume decimal digits, failing on
any non-digit character. -/
def parseDigitsGo : List Char → Nat → Option Nat
  | [], acc => some acc
  | c :: cs, acc =>
    if c.isDigit then parseDigitsGo cs (acc * 10 + digitVal c) else none

/-- Digit-string parsing: at least one character, all decimal digits. -/
def parseDigits : List Char → Option Nat
  | [] => none
  | cs => parseDigitsGo cs 0

/-- `str::parse::<i32>` as used by `parse` in forth.rs: an optional leading
`+` or `-`, then one or more decimal digits, and the value must fit `i32`
(Rust's checked accumulation fails exactly when the final value is out of
range). -/
def parseI32 (cs : List Char) : Option Int :=
  match cs with
  | [] => none
  | c :: rest =>
    if c = '+' then
      match parseDigits rest with
      | some n => if (n : Int) ≤ i32max then some (n : Int) else none
      | none => none
    else if c = '-' then
      match parseDigits rest with
      | some n => if (n : Int) ≤ 2 ^ 31 then some (-(n : Int)) else none
      | none => none
    else
      match parseDigits (c :: rest) with
      | some n => if (n : Int) ≤ i32max then some (n : Int) else none
      | none => none

/-- Upper-casing of a word fragment.  The source calls `str::to_uppercase`,
whose Unicode case mapping is standard-library table data outside this
repository; this model maps `Char.toUpper` and is therefore faithful only on
ASCII fragments (non-ASCII mappings such as the one-to-many expansion of eszett
are not modelled).  Every theorem below reaches `parse` either at concrete
all-ASCII inputs or under a hypothesis that pins the fragments to ASCII
operator and digit characters, so none depends on the unmodelled range. -/
def rustToUpper (cs : List Char) : String := String.mk (cs.map Char.toUpper)

/-- `parse` from forth.rs: split the input, then turn each fragment into a
`Number` token when it parses as an `i32` and otherwise into an upper-cased
`Word` token. -/
def parse (s : String) : List Token :=
  (splitWords s.data []).map (fun frag =>
    match parseI32 frag with
    | some v => Token.number v
    | none => Token.word (rustToUpper frag))

/-- Body-scanning loop of `Forth::compile`: accumulate the new word's body
until the terminating `;`; a `Word` token is early-bound via `lookup_word`
(failing with `InvalidWord` when unresolved), other tokens are copied; queue
exhaustion before `;` is `InvalidWord`.  Returns the updated word table, the
remaining queue, and the optional error. -/
def compileLoop (ws : List Word) (wname : String) (acc : List Token) :
    List Token → List Word × List Token × Option Error
  | [] => (ws, [], some Error.invalidWord)
  | t :: rest =>
    match t with
    | Token.word n =>
      if n = ";" then (ws ++ [Word.new_compiled wname acc], rest, none)
      else
        match lookup_word ws n with
        | some i => compileLoop ws wname (acc ++ [Token.wordIndex i]) rest
        | none => (ws, rest, some Error.invalidWord)
    | _ => compileLoop ws wname (acc ++ [t]) rest

/-- `Forth::compile` from forth.rs.  The front token is popped first; when it
is not a `Word` token (or the queue is empty) the result is `InvalidWord`. -/
def compile (st : Forth) : Forth × Option Error :=
  match st.tokens with
  | Token.word wname :: rest =>
    match compileLoop st.words wname [] rest with
    | (ws, q, e) => (⟨st.stack, q, ws⟩, e)
  | _ :: rest => (⟨st.stack, rest, st.words⟩, some Error.invalidWord)
  | [] => (⟨st.stack, [], st.words⟩, some Error.invalidWord)

/-- Outcome of one `Forth::interp` step. -/
inductive StepRes where
  | ok : Forth → StepRes
  | err : Forth → Error → StepRes
  | abort : StepRes
deriving DecidableEq

/-- `Forth::interp` from forth.rs: compute the current index of `:` (the
`unwrap` panics when absent), pop the front token (the `unwrap` panics on an
empty queue), then dispatch: a `Word` is resolved and re-pushed as a
`WordIndex` (or `UnknownWord`); the `WordIndex` equal to the `:` index runs
the compiler; any other `WordIndex` runs the indexed word's executor (an out
of range index panics); a `Number` is pushed onto the stack. -/
def interp (st : Forth) : StepRes :=
  match lookup_word st.words ":" with
  | none => StepRes.abort
  | some compile_index =>
    match st.tokens with
    | [] => StepRes.abort
    | t :: rest =>
      match t with
      | Token.word w =>
        match lookup_word st.words w with
        | some wi => StepRes.ok ⟨st.stack, Token.wordIndex wi :: rest, st.words⟩
        | none => StepRes.err ⟨st.stack, rest, st.words⟩ Error.unknownWord
      | Token.wordIndex i =>
        if i = compile_index then
          match compile ⟨st.stack, rest, st.words⟩ with
          | (st2, none) => StepRes.ok st2
          | (st2, some e) => StepRes.err st2 e
        else
          match st.words[i]? with
          | none => StepRes.abort
          | some w =>
            match runExec w.exec w st.stack rest with
            | ExecRes.ok s q => StepRes.ok ⟨s, q, st.words⟩
            | ExecRes.err s q e => StepRes.err ⟨s, q, st.words⟩ e
            | ExecRes.abort => StepRes.abort
      | Token.number v => StepRes.ok ⟨v :: st.stack, rest, st.words⟩

/-- The `while self.tokens.len() > 0 { self.interp()? }` loop of `Forth::eval`
with explicit fuel; `none` means the fuel ran out or a panic occurred. -/
def evalSteps : Nat → Forth → Option (Forth × Option Error)
  | 0, st => if st.tokens = [] then some (st, none) else none
  | n + 1, st =>
    if st.tokens = [] then some (st, none)
    else
      match interp st with
      | StepRes.ok st2 => evalSteps n st2
      | StepRes.err st2 e => some (st2, some e)
      | StepRes.abort => none

/-- `Forth::eval` from forth.rs: replace the queue with the parse of the input
(discarding any leftover queue), then run the interpretation loop. -/
def eval (fuel : Nat) (st : Forth) (input : String) : Option (Forth × Option Error) :=
  evalSteps fuel ⟨st.stack, parse input, st.words⟩

/-- Evaluation on a fresh session, as `interpret` in lib.rs performs it. -/
def evalFresh (fuel : Nat) (input : String) : Option (Forth × Option Error) :=
  eval fuel Forth.new input

/-- Iterated successful interpreter steps; `none` when a step errs or aborts. -/
def stepN : Nat → Forth → Option Forth
  | 0, st => some st
  | n + 1, st =>
    match interp st with
    | StepRes.ok st2 => stepN n st2
    | _ => none

/-- `interpret` from lib.rs: evaluate on a fresh session; on success render the
stack snapshot reversed (top of stack first), each value in decimal, joined
with `<br/>`; on failure return the fixed string of the error kind. -/
def interpret (fuel : Nat) (code : String) : Option String :=
  match evalFresh fuel code with
  | none => none
  | some (f, none) =>
    some (String.intercalate "<br/>" ((f.stackSnapshot.reverse).map (fun x => toString x)))
  | some (_, some Error.divisionByZero) => some "Error: division by zero"
  | some (_, some Error.stackUnderflow) => some "Error: stack underflow"
  | some (_, some Error.unknownWord) => some "Error: unknown word"
  | some (_, some Error.invalidWord) => some "Error: invalid word"

/-! ### Helper lemmas -/

/-- Pushing a list to the front of a queue while iterating it in reverse
prepends it in its original order. -/
theorem reverse_foldl_cons (l acc : List Token) :
    l.reverse.foldl (fun q t => t :: q) acc = l ++ acc := by
  induction l generalizing acc with
  | nil => rfl
  | cons x xs ih => simp [List.foldl_append, ih]

/-- `do_exec` re-injects the stored body at the front of the queue in its
original order and leaves the stack unchanged. -/
theorem do_exec_eq (w : Word) (stack : List Value) (tokens : List Token) :
    do_exec w stack tokens = ExecRes.ok stack (w.data ++ tokens) := by
  rw [do_exec, reverse_foldl_cons]

/-- The reverse-scan loop finds the first matching position `j` of its input
list and returns `total - 1 - (k + j)`. -/
theorem lookupGo_eq_some_iff (total : Nat) (name : String) (l : List Word) (k i : Nat) :
    lookupGo total name l k = some i ↔
      ∃ j, ∃ hj : j < l.length, (l.get ⟨j, hj⟩).name = name ∧
        (∀ j', ∀ hj' : j' < l.length, j' < j → (l.get ⟨j', hj'⟩).name ≠ name) ∧
        i = total - 1 - (k + j) := by
  induction l generalizing k with
  | nil => simp [lookupGo]
  | cons w rest ih =>
    by_cases hw : w.name = name
    · rw [lookupGo, if_pos hw]
      constructor
      · intro h
        refine ⟨0, by simp, hw, ?_, ?_⟩
        · intro j' hj' hlt; omega
        · have := Option.some.inj h; omega
      · rintro ⟨j, hj, hname, hmin, hi⟩
        match j with
        | 0 => simp only [Nat.add_zero] at hi; rw [hi]
        | j' + 1 =>
          exact absurd hw (hmin 0 (by simp) (Nat.succ_pos j'))
    · rw [lookupGo, if_neg hw, ih]
      constructor
      · rintro ⟨j, hj, hname, hmin, hi⟩
        refine ⟨j + 1, by simpa using Nat.succ_lt_succ hj, by simpa using hname, ?_, ?_⟩
        · intro j' hj' hlt
          match j' with
          | 0 => simpa using hw
          | j'' + 1 =>
            have hj'' : j'' < rest.length := by simpa using hj'
            simpa using hmin j'' hj'' (by omega)
        · omega
      · rintro ⟨j, hj, hname, hmin, hi⟩
        match j with
        | 0 => exact absurd (by simpa using hname) hw
        | j' + 1 =>
          have hj' : j' < rest.length := by simpa using hj
          refine ⟨j', hj', by simpa using hname, ?_, by omega⟩
          intro j'' hj'' hlt
          simpa using hmin (j'' + 1) (by simpa using Nat.succ_lt_succ hj'') (by omega)

/-- The reverse-scan loop fails exactly when no position of its input list
matches. -/
theorem lookupGo_eq_none_iff (total : Nat) (name : String) (l : List Word) (k : Nat) :
    lookupGo total name l k = none ↔
      ∀ j, ∀ hj : j < l.length, (l.get ⟨j, hj⟩).name ≠ name := by
  induction l generalizing k with
  | nil => simp [lookupGo]
  | cons w rest ih =>
    by_cases hw : w.name = name
    · rw [lookupGo, if_pos hw]
      simp only [Option.some_ne_none, false_iff, not_forall]
      exact ⟨0, by simp, by simpa using hw⟩
    · rw [lookupGo, if_neg hw, ih]
      constructor
      · intro h j hj
        match j with
        | 0 => simpa using hw
        | j' + 1 => simpa using h j' (by simpa using hj)
      · intro h j hj
        simpa using h (j + 1) (by simpa using Nat.succ_lt_succ hj)

/-- Reading a reversed list at `j` reads the original at `length - 1 - j`. -/
theorem get_rev_eq (l : List Word) (j : Nat) (h2 : l.length - 1 - j < l.length) :
    ∀ hj : j < l.reverse.length, l.reverse.get ⟨j, hj⟩ = l.get ⟨l.length - 1 - j, h2⟩ :=
  fun hj => List.get_reverse' l ⟨j, hj⟩ h2

/-- `lookup_word` returns the highest index whose entry's name matches. -/
theorem lookup_word_eq_some_iff (ws : List Word) (name : String) (i : Nat) :
    lookup_word ws name = some i ↔
      ∃ h : i < ws.length, (ws.get ⟨i, h⟩).name = name ∧
        ∀ j, ∀ hj : j < ws.length, i < j → (ws.get ⟨j, hj⟩).name ≠ name := by
  rw [lookup_word, lookupGo_eq_some_iff]
  constructor
  · rintro ⟨j, hj, hname, hmin, hi⟩
    rw [List.length_reverse] at hj
    have hlen : 0 < ws.length := by omega
    have hi' : i = ws.length - 1 - j := by omega
    have hiw : i < ws.length := by omega
    refine ⟨hiw, ?_, ?_⟩
    · rw [get_rev_eq ws j (by omega)] at hname
      · have : ws.length - 1 - j = i := by omega
        simpa [this] using hname
    · intro j₂ hj₂ hlt
      have hj' : ws.length - 1 - j₂ < j := by omega
      have := hmin (ws.length - 1 - j₂) (by rw [List.length_reverse]; omega) hj'
      rw [get_rev_eq ws (ws.length - 1 - j₂) (by omega)] at this
      have heq : ws.length - 1 - (ws.length - 1 - j₂) = j₂ := by omega
      simpa [heq] using this
  · rintro ⟨hiw, hname, hmax⟩
    have hlen : 0 < ws.length := by omega
    refine ⟨ws.length - 1 - i, by rw [List.length_reverse]; omega, ?_, ?_, by omega⟩
    · rw [get_rev_eq ws (ws.length - 1 - i) (by omega)]
      have heq : ws.length - 1 - (ws.length - 1 - i) = i := by omega
      simpa [heq] using hname
    · intro j' hj' hlt
      rw [List.length_reverse] at hj'
      rw [get_rev_eq ws j' (by omega)]
      exact hmax (ws.length - 1 - j') (by omega) (by omega)

/-- `lookup_word` fails exactly when no entry's name matches. -/
theorem lookup_word_eq_none_iff (ws : List Word) (name : String) :
    lookup_word ws name = none ↔
      ∀ j, ∀ hj : j < ws.length, (ws.get ⟨j, hj⟩).name ≠ name := by
  rw [lookup_word, lookupGo_eq_none_iff]
  constructor
  · intro h j hj
    have := h (ws.length - 1 - j) (by rw [List.length_reverse]; omega)
    rw [get_rev_eq ws (ws.length - 1 - j) (by omega)] at this
    have heq : ws.length - 1 - (ws.length - 1 - j) = j := by omega
    simpa [heq] using this
  · intro h j hj
    rw [List.length_reverse] at hj
    rw [get_rev_eq ws j (by omega)]
    exact h (ws.length - 1 - j) (by omega)

/-- Indices returned by `lookup_word` are valid table indices. -/
theorem lookup_word_lt_length {ws : List Word} {name : String} {i : Nat}
    (h : lookup_word ws name = some i) : i < ws.length := by
  rcases (lookup_word_eq_some_iff ws name i).mp h with ⟨hi, _⟩
  exact hi

/-- Early binding of a single body token as `compileLoop` performs it: a
`Word` token becomes the `WordIndex` found by `lookup_word`, any other token
is copied unchanged. -/
def resolveTok (ws : List Word) : Token → Token
  | Token.word n => Token.wordIndex ((lookup_word ws n).getD 0)
  | t => t

/-- Early-bound form of a compiled body. -/
def resolveBody (ws : List Word) (body : List Token) : List Token :=
  body.map (resolveTok ws)

/-- Every failure of the body scan is `InvalidWord` and leaves the word table
untouched. -/
theorem compileLoop_err (ws : List Word) (wname : String) :
    ∀ q acc e, (compileLoop ws wname acc q).2.2 = some e →
      e = Error.invalidWord ∧ (compileLoop ws wname acc q).1 = ws := by
  intro q
  induction q with
  | nil =>
    intro acc e he
    simp only [compileLoop, Option.some.injEq] at he
    exact ⟨he.symm, rfl⟩
  | cons t rest ih =>
    intro acc e he
    cases t with
    | word n =>
      by_cases hn : n = ";"
      · simp only [compileLoop, if_pos hn] at he
        exact Option.noConfusion he
      · simp only [compileLoop, if_neg hn] at he ⊢
        cases hl : lookup_word ws n with
        | some i =>
          rw [hl] at he
          exact ih _ e he
        | none =>
          rw [hl] at he
          exact ⟨(Option.some.inj he).symm, rfl⟩
    | wordIndex i =>
      simp only [compileLoop] at he ⊢
      exact ih _ e he
    | number v =>
      simp only [compileLoop] at he ⊢
      exact ih _ e he

/-- Successful body scan: up to the first terminating `;` every token is
early-bound by `resolveTok` and the new word is appended to the table. -/
theorem compileLoop_ok (ws : List Word) (wname : String) :
    ∀ pre post acc, Token.word ";" ∉ pre →
      (∀ n, Token.word n ∈ pre → lookup_word ws n ≠ none) →
      compileLoop ws wname acc (pre ++ Token.word ";" :: post) =
        (ws ++ [Word.new_compiled wname (acc ++ resolveBody ws pre)], post, none) := by
  intro pre
  induction pre with
  | nil =>
    intro post acc _ _
    simp [compileLoop, resolveBody]
  | cons t pre ih =>
    intro post acc hsep hres
    have hsep' : Token.word ";" ∉ pre := fun h => hsep (List.mem_cons_of_mem _ h)
    cases t with
    | word n =>
      have hn : n ≠ ";" := by
        intro h
        exact hsep (by rw [h]; exact List.mem_cons_self _ _)
      have hres' : ∀ m, Token.word m ∈ pre → lookup_word ws m ≠ none :=
        fun m hm => hres m (List.mem_cons_of_mem _ hm)
      simp only [List.cons_append, compileLoop, if_neg hn]
      cases hl : lookup_word ws n with
      | none => exact absurd hl (hres n (List.mem_cons_self _ _))
      | some i =>
        exact (ih post (acc ++ [Token.wordIndex i]) hsep' hres').trans
          (by simp [resolveBody, resolveTok, hl])
    | wordIndex i =>
      have hres' : ∀ m, Token.word m ∈ pre → lookup_word ws m ≠ none :=
        fun m hm => hres m (List.mem_cons_of_mem _ hm)
      simp only [List.cons_append, compileLoop]
      exact (ih post (acc ++ [Token.wordIndex i]) hsep' hres').trans
        (by simp [resolveBody, resolveTok])
    | number v =>
      have hres' : ∀ m, Token.word m ∈ pre → lookup_word ws m ≠ none :=
        fun m hm => hres m (List.mem_cons_of_mem _ hm)
      simp only [List.cons_append, compileLoop]
      exact (ih post (acc ++ [Token.number v]) hsep' hres').trans
        (by simp [resolveBody, resolveTok])

/-- A queue with no terminating `;` whose word tokens all resolve is drained
completely and ends in `InvalidWord` with the table untouched. -/
theorem compileLoop_exhaust (ws : List Word) (wname : String) :
    ∀ q acc, Token.word ";" ∉ q →
      (∀ n, Token.word n ∈ q → lookup_word ws n ≠ none) →
      compileLoop ws wname acc q = (ws, [], some Error.invalidWord) := by
  intro q
  induction q with
  | nil => intro acc _ _; rfl
  | cons t rest ih =>
    intro acc hsep hres
    have hsep' : Token.word ";" ∉ rest := fun h => hsep (List.mem_cons_of_mem _ h)
    have hres' : ∀ m, Token.word m ∈ rest → lookup_word ws m ≠ none :=
      fun m hm => hres m (List.mem_cons_of_mem _ hm)
    cases t with
    | word n =>
      have hn : n ≠ ";" := by
        intro h
        exact hsep (by rw [h]; exact List.mem_cons_self _ _)
      simp only [compileLoop, if_neg hn]
      cases hl : lookup_word ws n with
      | none => exact absurd hl (hres n (List.mem_cons_self _ _))
      | some i => exact ih _ hsep' hres'
    | wordIndex i =>
      simp only [compileLoop]
      exact ih _ hsep' hres'
    | number v =>
      simp only [compileLoop]
      exact ih _ hsep' hres'

/-- The body scan succeeds exactly when the queue starts with a (possibly
empty) block free of `;` whose word tokens all resolve, followed by the
terminating `;`. -/
theorem compileLoop_none_iff (ws : List Word) (wname : String) :
    ∀ q acc, (compileLoop ws wname acc q).2.2 = none ↔
      ∃ pre post, q = pre ++ Token.word ";" :: post ∧ Token.word ";" ∉ pre ∧
        ∀ n, Token.word n ∈ pre → lookup_word ws n ≠ none := by
  intro q
  induction q with
  | nil =>
    intro acc
    simp only [compileLoop]
    constructor
    · intro h; exact absurd h (by simp)
    · rintro ⟨pre, post, habs, -, -⟩
      exact absurd habs (by simp)
  | cons t rest ih =>
    intro acc
    cases t with
    | word n =>
      by_cases hn : n = ";"
      · subst hn
        simp only [compileLoop, if_pos rfl]
        constructor
        · intro _
          exact ⟨[], rest, rfl, by simp, by simp⟩
        · intro _; rfl
      · simp only [compileLoop, if_neg hn]
        cases hl : lookup_word ws n with
        | some i =>
          refine Iff.trans (ih (acc ++ [Token.wordIndex i])) ?_
          constructor
          · rintro ⟨pre, post, hq, hsep, hres⟩
            refine ⟨Token.word n :: pre, post, by simp [hq], ?_, ?_⟩
            · intro h
              rcases List.mem_cons.mp h with h | h
              · exact hn (Token.word.inj h.symm)
              · exact hsep h
            · intro m hm
              rcases List.mem_cons.mp hm with h | h
              · rw [Token.word.inj h]; rw [hl]; simp
              · exact hres m h
          · rintro ⟨pre, post, hq, hsep, hres⟩
            cases pre with
            | nil =>
              simp only [List.nil_append, List.cons.injEq] at hq
              exact absurd (Token.word.inj hq.1) hn
            | cons t' pre' =>
              simp only [List.cons_append, List.cons.injEq] at hq
              refine ⟨pre', post, hq.2, ?_, ?_⟩
              · intro h; exact hsep (List.mem_cons_of_mem _ h)
              · intro m hm; exact hres m (List.mem_cons_of_mem _ hm)
        | none =>
          simp only [Option.some_ne_none, false_iff]
          rintro ⟨pre, post, hq, hsep, hres⟩
          cases pre with
          | nil =>
            simp only [List.nil_append, List.cons.injEq] at hq
            exact absurd (Token.word.inj hq.1) hn
          | cons t' pre' =>
            simp only [List.cons_append, List.cons.injEq] at hq
            exact hres n (by rw [hq.1]; exact List.mem_cons_self _ _) hl
    | wordIndex i =>
      refine Iff.trans (ih (acc ++ [Token.wordIndex i])) ?_
      constructor
      · rintro ⟨pre, post, hq, hsep, hres⟩
        refine ⟨Token.wordIndex i :: pre, post, by simp [hq], ?_, ?_⟩
        · intro h
          rcases List.mem_cons.mp h with h | h
          · exact absurd h (by simp)
          · exact hsep h
        · intro m hm
          rcases List.mem_cons.mp hm with h | h
          · exact absurd h (by simp)
          · exact hres m h
      · rintro ⟨pre, post, hq, hsep, hres⟩
        cases pre with
        | nil =>
          simp only [List.nil_append, List.cons.injEq] at hq
          exact absurd hq.1 (by simp)
        | cons t' pre' =>
          simp only [List.cons_append, List.cons.injEq] at hq
          refine ⟨pre', post, hq.2, ?_, ?_⟩
          · intro h; exact hsep (List.mem_cons_of_mem _ h)
          · intro m hm; exact hres m (List.mem_cons_of_mem _ hm)
    | number v =>
      refine Iff.trans (ih (acc ++ [Token.number v])) ?_
      constructor
      · rintro ⟨pre, post, hq, hsep, hres⟩
        refine ⟨Token.number v :: pre, post, by simp [hq], ?_, ?_⟩
        · intro h
          rcases List.mem_cons.mp h with h | h
          · exact absurd h (by simp)
          · exact hsep h
        · intro m hm
          rcases List.mem_cons.mp hm with h | h
          · exact absurd h (by simp)
          · exact hres m h
      · rintro ⟨pre, post, hq, hsep, hres⟩
        cases pre with
        | nil =>
          simp only [List.nil_append, List.cons.injEq] at hq
          exact absurd hq.1 (by simp)
        | cons t' pre' =>
          simp only [List.cons_append, List.cons.injEq] at hq
          refine ⟨pre', post, hq.2, ?_, ?_⟩
          · intro h; exact hsep (List.mem_cons_of_mem _ h)
          · intro m hm; exact hres m (List.mem_cons_of_mem _ hm)

/-- Two decompositions at the first occurrence of the same token agree. -/
theorem first_occ_unique {x : Token} :
    ∀ pre pre' post post' : List Token,
      pre ++ x :: post = pre' ++ x :: post' → x ∉ pre → x ∉ pre' →
      pre = pre' ∧ post = post' := by
  intro pre
  induction pre with
  | nil =>
    intro pre' post post' heq _ hx'
    cases pre' with
    | nil =>
      simp only [List.nil_append, List.cons.injEq] at heq
      exact ⟨rfl, heq.2⟩
    | cons y ys =>
      simp only [List.nil_append, List.cons_append, List.cons.injEq] at heq
      exact absurd (by rw [heq.1]; exact List.mem_cons_self _ _) hx'
  | cons y ys ih =>
    intro pre' post post' heq hx hx'
    cases pre' with
    | nil =>
      simp only [List.cons_append, List.nil_append, List.cons.injEq] at heq
      exact absurd (by rw [← heq.1]; exact List.mem_cons_self _ _) hx
    | cons z zs =>
      simp only [List.cons_append, List.cons.injEq] at heq
      have hx2 : x ∉ ys := fun h => hx (List.mem_cons_of_mem _ h)
      have hx2' : x ∉ zs := fun h => hx' (List.mem_cons_of_mem _ h)
      rcases ih zs post post' heq.2 hx2 hx2' with ⟨h1, h2⟩
      exact ⟨by rw [heq.1, h1], h2⟩

/-- Positional decimal value of a digit string (`Nat.ofDigits` reads its digit
list little-endian, so the string is reversed). -/
def decValueSpec (ds : List Char) : Nat := Nat.ofDigits 10 (ds.reverse.map digitVal)

/-- The spec's description of a well-formed numeric literal of value `v`: an
optional leading `+` or `-` sign, then one or more decimal digits, the value
(negated under a `-` sign) fitting the 32-bit signed range. -/
def numLiteralSpec (frag : List Char) (v : Int) : Prop :=
  ∃ sign ds, frag = sign ++ ds ∧ (sign = [] ∨ sign = ['+'] ∨ sign = ['-']) ∧
    ds ≠ [] ∧ (∀ c ∈ ds, c.isDigit) ∧
    v = (if sign = ['-'] then -(decValueSpec ds : Int) else (decValueSpec ds : Int)) ∧
    i32min ≤ v ∧ v ≤ i32max

theorem i32min_eq : i32min = -2147483648 := by norm_num [i32min]

theorem i32max_eq : i32max = 2147483647 := by norm_num [i32max]

theorem decValueSpec_nil : decValueSpec [] = 0 := rfl

theorem decValueSpec_cons (c : Char) (ds : List Char) :
    decValueSpec (c :: ds) = digitVal c * 10 ^ ds.length + decValueSpec ds := by
  rw [decValueSpec, decValueSpec, List.reverse_cons, List.map_append,
    Nat.ofDigits_append]
  simp [Nat.ofDigits_singleton, Nat.mul_comm, Nat.add_comm]

/-- The accumulating digit loop on an all-digit string. -/
theorem parseDigitsGo_digits :
    ∀ cs : List Char, (∀ c ∈ cs, c.isDigit) →
      ∀ acc, parseDigitsGo cs acc = some (acc * 10 ^ cs.length + decValueSpec cs) := by
  intro cs
  induction cs with
  | nil => intro _ acc; simp [parseDigitsGo, decValueSpec_nil]
  | cons c cs ih =>
    intro hdig acc
    have hc : c.isDigit := hdig c (List.mem_cons_self _ _)
    rw [parseDigitsGo, if_pos hc, ih (fun x hx => hdig x (List.mem_cons_of_mem _ hx))]
    rw [decValueSpec_cons]
    congr 1
    simp [List.length_cons, Nat.pow_succ]
    ring

/-- The accumulating digit loop succeeds only on all-digit strings. -/
theorem parseDigitsGo_digits_of_some :
    ∀ cs : List Char, ∀ acc n, parseDigitsGo cs acc = some n → ∀ c ∈ cs, c.isDigit := by
  intro cs
  induction cs with
  | nil => intro _ _ _ c hc; exact absurd hc (List.not_mem_nil c)
  | cons c cs ih =>
    intro acc n h x hx
    by_cases hc : c.isDigit
    · rw [parseDigitsGo, if_pos hc] at h
      rcases List.mem_cons.mp hx with rfl | hx
      · exact hc
      · exact ih _ _ h x hx
    · rw [parseDigitsGo, if_neg hc] at h
      exact Option.noConfusion h

/-- `parseDigits` succeeds exactly on non-empty all-digit strings, returning
the positional decimal value. -/
theorem parseDigits_eq_some_iff (cs : List Char) (n : Nat) :
    parseDigits cs = some n ↔ cs ≠ [] ∧ (∀ c ∈ cs, c.isDigit) ∧ n = decValueSpec cs := by
  cases cs with
  | nil => simp [parseDigits]
  | cons c rest =>
    have hpd : parseDigits (c :: rest) = parseDigitsGo (c :: rest) 0 := rfl
    rw [hpd]
    constructor
    · intro h
      have hdig := parseDigitsGo_digits_of_some _ _ _ h
      rw [parseDigitsGo_digits _ hdig 0] at h
      have := Option.some.inj h
      exact ⟨by simp, hdig, by omega⟩
    · rintro ⟨-, hdig, hn⟩
      rw [parseDigitsGo_digits _ hdig 0]
      simp [hn]

theorem numLiteralSpec_plus (rest : List Char) (v : Int) :
    numLiteralSpec ('+' :: rest) v ↔
      rest ≠ [] ∧ (∀ c ∈ rest, c.isDigit) ∧ v = (decValueSpec rest : Int) ∧ v ≤ i32max := by
  constructor
  · rintro ⟨sign, ds, happ, hsign, hds, hdig, hv, hlo, hhi⟩
    rcases hsign with rfl | rfl | rfl
    · rw [List.nil_append] at happ
      have : ('+' : Char).isDigit :=
        hdig '+' (by rw [← happ]; exact List.mem_cons_self _ _)
      exact absurd this (by decide)
    · rw [List.cons_append, List.nil_append] at happ
      have hds' : ds = rest := (List.cons.inj happ).2.symm
      subst hds'
      refine ⟨hds, hdig, ?_, hhi⟩
      simpa using hv
    · rw [List.cons_append, List.nil_append] at happ
      exact absurd (List.cons.inj happ).1 (by decide)
  · rintro ⟨hne, hdig, hv, hhi⟩
    refine ⟨['+'], rest, rfl, Or.inr (Or.inl rfl), hne, hdig, by simpa using hv, ?_, hhi⟩
    rw [hv, i32min_eq]
    have : (0 : Int) ≤ (decValueSpec rest : Int) := Int.natCast_nonneg _
    omega

theorem numLiteralSpec_minus (rest : List Char) (v : Int) :
    numLiteralSpec ('-' :: rest) v ↔
      rest ≠ [] ∧ (∀ c ∈ rest, c.isDigit) ∧ v = -(decValueSpec rest : Int) ∧ i32min ≤ v := by
  constructor
  · rintro ⟨sign, ds, happ, hsign, hds, hdig, hv, hlo, hhi⟩
    rcases hsign with rfl | rfl | rfl
    · rw [List.nil_append] at happ
      have : ('-' : Char).isDigit :=
        hdig '-' (by rw [← happ]; exact List.mem_cons_self _ _)
      exact absurd this (by decide)
    · rw [List.cons_append, List.nil_append] at happ
      exact absurd (List.cons.inj happ).1 (by decide)
    · rw [List.cons_append, List.nil_append] at happ
      have hds' : ds = rest := (List.cons.inj happ).2.symm
      subst hds'
      exact ⟨hds, hdig, by simpa using hv, hlo⟩
  · rintro ⟨hne, hdig, hv, hlo⟩
    refine ⟨['-'], rest, rfl, Or.inr (Or.inr rfl), hne, hdig, by simpa using hv, hlo, ?_⟩
    rw [hv, i32max_eq]
    have : (0 : Int) ≤ (decValueSpec rest : Int) := Int.natCast_nonneg _
    omega

theorem numLiteralSpec_nosign (c : Char) (rest : List Char) (v : Int)
    (hp : c ≠ '+') (hm : c ≠ '-') :
    numLiteralSpec (c :: rest) v ↔
      (∀ x ∈ c :: rest, x.isDigit) ∧ v = (decValueSpec (c :: rest) : Int) ∧ v ≤ i32max := by
  constructor
  · rintro ⟨sign, ds, happ, hsign, hds, hdig, hv, hlo, hhi⟩
    rcases hsign with rfl | rfl | rfl
    · rw [List.nil_append] at happ
      subst happ
      exact ⟨hdig, by simpa using hv, hhi⟩
    · rw [List.cons_append, List.nil_append] at happ
      exact absurd (List.cons.inj happ).1 hp
    · rw [List.cons_append, List.nil_append] at happ
      exact absurd (List.cons.inj happ).1 hm
  · rintro ⟨hdig, hv, hhi⟩
    refine ⟨[], c :: rest, rfl, Or.inl rfl, by simp, hdig, by simpa using hv, ?_, hhi⟩
    rw [hv, i32min_eq]
    have : (0 : Int) ≤ (decValueSpec (c :: rest) : Int) := Int.natCast_nonneg _
    omega

/-- `parseI32` accepts exactly the numeric literals the spec describes and
returns their value. -/
theorem parseI32_eq_some_iff (frag : List Char) (v : Int) :
    parseI32 frag = some v ↔ numLiteralSpec frag v := by
  cases frag with
  | nil =>
    simp only [parseI32]
    constructor
    · intro h; exact Option.noConfusion h
    · rintro ⟨sign, ds, happ, hsign, hds, -⟩
      rcases List.append_eq_nil.mp happ.symm with ⟨-, h2⟩
      exact absurd h2 hds
  | cons c rest =>
    by_cases hp : c = '+'
    · subst hp
      rw [parseI32]
      rw [if_pos rfl, numLiteralSpec_plus]
      cases hd : parseDigits rest with
      | some n =>
        rcases (parseDigits_eq_some_iff rest n).mp hd with ⟨hne, hdig, hval⟩
        change (if (n : Int) ≤ i32max then some ((n : Int)) else none) = some v ↔ _
        by_cases hle : (n : Int) ≤ i32max
        · rw [if_pos hle]
          constructor
          · intro h
            have hv := (Option.some.inj h).symm
            exact ⟨hne, hdig, by omega, by omega⟩
          · rintro ⟨-, -, hv, hhi⟩
            have : v = (n : Int) := by omega
            rw [this]
        · rw [if_neg hle]
          constructor
          · intro h; exact Option.noConfusion h
          · rintro ⟨-, -, hv, hhi⟩
            exact absurd (by omega : (n : Int) ≤ i32max) hle
      | none =>
        constructor
        · intro h; exact Option.noConfusion h
        · rintro ⟨hne, hdig, -, -⟩
          have : parseDigits rest = some (decValueSpec rest) :=
            (parseDigits_eq_some_iff rest _).mpr ⟨hne, hdig, rfl⟩
          rw [hd] at this
          exact Option.noConfusion this
    · by_cases hm : c = '-'
      · subst hm
        rw [parseI32]
        rw [if_neg (by decide), if_pos rfl, numLiteralSpec_minus]
        cases hd : parseDigits rest with
        | some n =>
          rcases (parseDigits_eq_some_iff rest n).mp hd with ⟨hne, hdig, hval⟩
          change (if (n : Int) ≤ 2 ^ 31 then some (-(n : Int)) else none) = some v ↔ _
          by_cases hle : (n : Int) ≤ 2 ^ 31
          · rw [if_pos hle]
            constructor
            · intro h
              have hv := (Option.some.inj h).symm
              refine ⟨hne, hdig, by omega, ?_⟩
              rw [i32min_eq]
              have h31 : (2 : Int) ^ 31 = 2147483648 := by norm_num
              omega
            · rintro ⟨-, -, hv, hlo⟩
              have h31 : (2 : Int) ^ 31 = 2147483648 := by norm_num
              rw [i32min_eq] at hlo
              have : v = -(n : Int) := by omega
              rw [this]
          · rw [if_neg hle]
            constructor
            · intro h; exact Option.noConfusion h
            · rintro ⟨-, -, hv, hlo⟩
              have h31 : (2 : Int) ^ 31 = 2147483648 := by norm_num
              rw [i32min_eq] at hlo
              exact absurd (by omega : (n : Int) ≤ 2 ^ 31) hle
        | none =>
          constructor
          · intro h; exact Option.noConfusion h
          · rintro ⟨hne, hdig, -, -⟩
            have : parseDigits rest = some (decValueSpec rest) :=
              (parseDigits_eq_some_iff rest _).mpr ⟨hne, hdig, rfl⟩
            rw [hd] at this
            exact Option.noConfusion this
      · rw [parseI32]
        rw [if_neg hp, if_neg hm, numLiteralSpec_nosign c rest v hp hm]
        cases hd : parseDigits (c :: rest) with
        | some n =>
          rcases (parseDigits_eq_some_iff _ n).mp hd with ⟨hne, hdig, hval⟩
          change (if (n : Int) ≤ i32max then some ((n : Int)) else none) = some v ↔ _
          by_cases hle : (n : Int) ≤ i32max
          · rw [if_pos hle]
            constructor
            · intro h
              have hv := (Option.some.inj h).symm
              exact ⟨hdig, by omega, by omega⟩
            · rintro ⟨-, hv, hhi⟩
              have : v = (n : Int) := by omega
              rw [this]
          · rw [if_neg hle]
            constructor
            · intro h; exact Option.noConfusion h
            · rintro ⟨-, hv, hhi⟩
              exact absurd (by omega : (n : Int) ≤ i32max) hle
        | none =>
          constructor
          · intro h; exact Option.noConfusion h
          · rintro ⟨hdig, -, -⟩
            have : parseDigits (c :: rest) = some (decValueSpec (c :: rest)) :=
              (parseDigits_eq_some_iff _ _).mpr ⟨by simp, hdig, rfl⟩
            rw [hd] at this
            exact Option.noConfusion this


/-- The value computed by `do_arithmetic` for each operator name: wrapping
32-bit addition, subtraction and multiplication, truncating division. -/
def arithResult (name : String) (v1 v2 : Value) : Value :=
  if name = "+" then wrap32 (v1 + v2)
  else if name = "-" then wrap32 (v1 - v2)
  else if name = "*" then wrap32 (v1 * v2)
  else Int.tdiv v1 v2

theorem do_arithmetic_plus (w : Word) (hn : w.name = "+") (v2 v1 : Value)
    (rest : List Value) (tk : List Token) :
    do_arithmetic w (v2 :: v1 :: rest) tk = ExecRes.ok (wrap32 (v1 + v2) :: rest) tk := by
  simp [do_arithmetic, hn]

theorem do_arithmetic_sub (w : Word) (hn : w.name = "-") (v2 v1 : Value)
    (rest : List Value) (tk : List Token) :
    do_arithmetic w (v2 :: v1 :: rest) tk = ExecRes.ok (wrap32 (v1 - v2) :: rest) tk := by
  simp [do_arithmetic, hn]

theorem do_arithmetic_mul (w : Word) (hn : w.name = "*") (v2 v1 : Value)
    (rest : List Value) (tk : List Token) :
    do_arithmetic w (v2 :: v1 :: rest) tk = ExecRes.ok (wrap32 (v1 * v2) :: rest) tk := by
  simp [do_arithmetic, hn]

theorem do_arithmetic_div (w : Word) (hn : w.name = "/") (v2 v1 : Value)
    (rest : List Value) (tk : List Token) :
    do_arithmetic w (v2 :: v1 :: rest) tk =
      (if v2 = 0 then ExecRes.err rest tk Error.divisionByZero
       else if v1 = i32min ∧ v2 = -1 then ExecRes.abort
       else ExecRes.ok (Int.tdiv v1 v2 :: rest) tk) := by
  simp [do_arithmetic, hn]

/-- `Forth::compile` on a queue led by a `Word` token, written with explicit
projections of the body scan's result. -/
theorem compile_eq_word (stk : List Value) (wname : String) (rest : List Token)
    (ws : List Word) :
    compile ⟨stk, Token.word wname :: rest, ws⟩ =
      (⟨stk, (compileLoop ws wname [] rest).2.1, (compileLoop ws wname [] rest).1⟩,
       (compileLoop ws wname [] rest).2.2) := rfl

/-- Splitting on separators the spec's way: every maximal fragment, the empty
ones included. -/
def splitOnSepsSpec : List Char → List (List Char)
  | [] => [[]]
  | c :: cs =>
    if isSep c then [] :: splitOnSepsSpec cs
    else
      match splitOnSepsSpec cs with
      | [] => [[c]]
      | f :: rest => (c :: f) :: rest

theorem splitOnSepsSpec_ne_nil : ∀ cs, splitOnSepsSpec cs ≠ [] := by
  intro cs
  cases cs with
  | nil => simp [splitOnSepsSpec]
  | cons c cs =>
    simp only [splitOnSepsSpec]
    by_cases h : isSep c
    · simp [h]
    · rw [if_neg h]
      cases splitOnSepsSpec cs with
      | nil => simp
      | cons f rest => simp

theorem splitWords_eq_aux :
    ∀ cs acc, splitWords cs acc =
      ((match splitOnSepsSpec cs with
        | [] => []
        | f :: r => (acc.reverse ++ f) :: r).filter (fun f => !f.isEmpty)) := by
  intro cs
  induction cs with
  | nil =>
    intro acc
    by_cases h : acc = []
    · subst h; simp [splitWords, splitOnSepsSpec]
    · rw [splitWords, if_neg h]
      have hne : (!List.isEmpty acc.reverse) = true := by
        simpa [List.isEmpty_iff] using h
      simp [splitOnSepsSpec, List.filter, hne]
  | cons c cs ih =>
    intro acc
    by_cases h : isSep c
    · rw [splitWords, if_pos h]
      simp only [splitOnSepsSpec, if_pos h, List.filter, List.append_nil]
      by_cases ha : acc = []
      · subst ha
        rw [if_pos rfl, ih []]
        rcases hs : splitOnSepsSpec cs with _ | ⟨f, r⟩
        · exact absurd hs (splitOnSepsSpec_ne_nil cs)
        · simp
      · rw [if_neg ha, ih []]
        have : (!List.isEmpty acc.reverse) = true := by
          simpa [List.isEmpty_iff] using ha
        rw [this]
        rcases hs : splitOnSepsSpec cs with _ | ⟨f, r⟩
        · exact absurd hs (splitOnSepsSpec_ne_nil cs)
        · simp
    · rw [splitWords, if_neg h, ih (c :: acc)]
      simp only [splitOnSepsSpec, if_neg h]
      rcases hs : splitOnSepsSpec cs with _ | ⟨f, r⟩
      · exact absurd hs (splitOnSepsSpec_ne_nil cs)
      · simp

/-- The fused fragment extraction equals split-then-filter-non-empty. -/
theorem splitWords_eq_spec (cs : List Char) :
    splitWords cs [] = (splitOnSepsSpec cs).filter (fun f => !f.isEmpty) := by
  rw [splitWords_eq_aux cs []]
  rcases hs : splitOnSepsSpec cs with _ | ⟨f, r⟩
  · exact absurd hs (splitOnSepsSpec_ne_nil cs)
  · simp


/-! ### Claim theorems -/

/-- C2 counterexample: with left operand `-2^31` and right operand `-1` (top
of stack), `/` does not succeed with the quotient — the division overflows
`i32` and the program panics — refuting the claim that for all `i32` operand
values the non-zero-divisor case succeeds. -/
theorem do_arithmetic_overflow_cex :
    do_arithmetic (Word.new "/" Exec.arith) [-1, -2147483648] [] = ExecRes.abort := by
  decide

/-- C2 (amended): an arithmetic word fails with `StackUnderflow` exactly when
fewer than two values are on the stack (leaving it unchanged); with two
values it pops the right operand first (`v2`, the stack top) and the left
operand second (`v1`); `/` fails with `DivisionByZero` exactly when the
popped right operand is zero (checked before dividing, both operands
consumed); in every other case except `/` with operands `-2^31` and `-1`
(which panics on overflow) it succeeds and pushes the single value
`left <op> right`, the `+ - *` results reduced to 32 bits. -/
theorem do_arithmetic_spec (w : Word)
    (hw : w.name = "+" ∨ w.name = "-" ∨ w.name = "*" ∨ w.name = "/") (tk : List Token) :
    (∀ stack, stack.length < 2 →
       do_arithmetic w stack tk = ExecRes.err stack tk Error.stackUnderflow) ∧
    (∀ v2 v1 rest s q,
       do_arithmetic w (v2 :: v1 :: rest) tk ≠ ExecRes.err s q Error.stackUnderflow) ∧
    (∀ v2 v1 rest,
       (do_arithmetic w (v2 :: v1 :: rest) tk = ExecRes.err rest tk Error.divisionByZero ↔
         w.name = "/" ∧ v2 = 0)) ∧
    (∀ v2 v1 rest, ¬(w.name = "/" ∧ v2 = 0) → ¬(w.name = "/" ∧ v1 = i32min ∧ v2 = -1) →
       do_arithmetic w (v2 :: v1 :: rest) tk =
         ExecRes.ok (arithResult w.name v1 v2 :: rest) tk) := by
  refine ⟨?_, ?_, ?_, ?_⟩
  · intro stack hlen
    cases stack with
    | nil => rfl
    | cons v s =>
      cases s with
      | nil => rfl
      | cons v' s' =>
        rw [List.length_cons, List.length_cons] at hlen
        omega
  · intro v2 v1 rest s q
    rcases hw with hn | hn | hn | hn
    · rw [do_arithmetic_plus w hn]
      intro h
      exact ExecRes.noConfusion h
    · rw [do_arithmetic_sub w hn]
      intro h
      exact ExecRes.noConfusion h
    · rw [do_arithmetic_mul w hn]
      intro h
      exact ExecRes.noConfusion h
    · rw [do_arithmetic_div w hn]
      by_cases hz : v2 = 0
      · rw [if_pos hz]
        intro h
        exact Error.noConfusion (ExecRes.err.inj h).2.2
      · rw [if_neg hz]
        by_cases hov : v1 = i32min ∧ v2 = -1
        · rw [if_pos hov]
          intro h
          exact ExecRes.noConfusion h
        · rw [if_neg hov]
          intro h
          exact ExecRes.noConfusion h
  · intro v2 v1 rest
    rcases hw with hn | hn | hn | hn
    · rw [do_arithmetic_plus w hn, hn]
      constructor
      · intro h; exact ExecRes.noConfusion h
      · rintro ⟨h1, -⟩; exact absurd h1 (by decide)
    · rw [do_arithmetic_sub w hn, hn]
      constructor
      · intro h; exact ExecRes.noConfusion h
      · rintro ⟨h1, -⟩; exact absurd h1 (by decide)
    · rw [do_arithmetic_mul w hn, hn]
      constructor
      · intro h; exact ExecRes.noConfusion h
      · rintro ⟨h1, -⟩; exact absurd h1 (by decide)
    · rw [do_arithmetic_div w hn, hn]
      by_cases hz : v2 = 0
      · rw [if_pos hz]
        simp [hz]
      · rw [if_neg hz]
        by_cases hov : v1 = i32min ∧ v2 = -1
        · rw [if_pos hov]
          constructor
          · intro h; exact ExecRes.noConfusion h
          · rintro ⟨-, h2⟩; exact absurd h2 hz
        · rw [if_neg hov]
          constructor
          · intro h; exact ExecRes.noConfusion h
          · rintro ⟨-, h2⟩; exact absurd h2 hz
  · intro v2 v1 rest hz hov
    rcases hw with hn | hn | hn | hn
    · rw [do_arithmetic_plus w hn, hn]
      simp [arithResult]
    · rw [do_arithmetic_sub w hn, hn]
      simp [arithResult]
    · rw [do_arithmetic_mul w hn, hn]
      simp [arithResult]
    · rw [do_arithmetic_div w hn, if_neg (fun h => hz ⟨hn, h⟩),
        if_neg (fun h => hov ⟨hn, h⟩), hn]
      simp [arithResult]

/-- C2 witness: `+` underflows on a one-value stack; `/` on stack top `0`
under `7` fails with `DivisionByZero`; `/` on stack top `2` under `7`
succeeds with `3`. -/
theorem do_arithmetic_spec_witness :
    do_arithmetic (Word.new "+" Exec.arith) [5] [] =
      ExecRes.err [5] [] Error.stackUnderflow ∧
    do_arithmetic (Word.new "/" Exec.arith) [0, 7] [] =
      ExecRes.err [] [] Error.divisionByZero ∧
    do_arithmetic (Word.new "/" Exec.arith) [2, 7] [] = ExecRes.ok [3] [] := by
  refine ⟨?_, ?_, ?_⟩
  · exact (do_arithmetic_spec (Word.new "+" Exec.arith) (Or.inl rfl) []).1 [5] (by decide)
  · exact ((do_arithmetic_spec (Word.new "/" Exec.arith) (Or.inr (Or.inr (Or.inr rfl)))
      []).2.2.1 0 7 []).mpr ⟨rfl, rfl⟩
  · have h := (do_arithmetic_spec (Word.new "/" Exec.arith) (Or.inr (Or.inr (Or.inr rfl)))
      []).2.2.2 2 7 [] (by decide) (by decide)
    rw [h]
    decide

/-- C4: `lookup_word` returns the highest (most recently appended) index
whose stored name equals the queried name exactly, and nothing when no entry
matches; consequently redefinition shadows rather than replaces, and
`": DOUBLE DUP + ; : DOUBLE DUP DUP + + ; 3 DOUBLE"` on a fresh session
succeeds leaving the stack `[9]`, both `DOUBLE` entries still in the table. -/
theorem lookup_word_spec :
    (∀ ws n i, lookup_word ws n = some i ↔
       ∃ h : i < ws.length, (ws.get ⟨i, h⟩).name = n ∧
         ∀ j, ∀ hj : j < ws.length, i < j → (ws.get ⟨j, hj⟩).name ≠ n) ∧
    (∀ ws n, lookup_word ws n = none ↔
       ∀ j, ∀ hj : j < ws.length, (ws.get ⟨j, hj⟩).name ≠ n) ∧
    evalFresh 30 ": DOUBLE DUP + ; : DOUBLE DUP DUP + + ; 3 DOUBLE" =
      some (⟨[9], [], builtinWords ++
        [⟨"DOUBLE", [Token.wordIndex 4, Token.wordIndex 0], Exec.expand⟩,
         ⟨"DOUBLE", [Token.wordIndex 4, Token.wordIndex 4, Token.wordIndex 0,
           Token.wordIndex 0], Exec.expand⟩]⟩, none) :=
  ⟨lookup_word_eq_some_iff, lookup_word_eq_none_iff, rfl⟩

/-- C4 witness: after appending a second `DUP` entry at index 9, lookup
resolves `DUP` to the new index 9, not the seeded index 4. -/
theorem lookup_word_spec_witness :
    ∃ h : (9 : Nat) < (builtinWords ++ [Word.new_compiled "DUP" []]).length,
      ((builtinWords ++ [Word.new_compiled "DUP" []]).get ⟨9, h⟩).name = "DUP" ∧
        ∀ j, ∀ hj : j < (builtinWords ++ [Word.new_compiled "DUP" []]).length,
          9 < j → ((builtinWords ++ [Word.new_compiled "DUP" []]).get ⟨j, hj⟩).name ≠ "DUP" :=
  (lookup_word_spec.1 (builtinWords ++ [Word.new_compiled "DUP" []]) "DUP" 9).mp (by decide)

/-- C5: executing a user-defined word re-injects its stored body at the front
of the queue in original order, leaving the stack unchanged; bodies are bound
to `WordIndex` tokens at compile time, so `": SQ DUP * ; 4 SQ"` leaves `[16]`
and `": SQ DUP * ; : QUAD SQ SQ ; 2 QUAD"` leaves `[16]`. -/
theorem expand_body_spec :
    (∀ w stack tokens, do_exec w stack tokens = ExecRes.ok stack (w.data ++ tokens)) ∧
    evalFresh 25 ": SQ DUP * ; 4 SQ" =
      some (⟨[16], [], builtinWords ++
        [⟨"SQ", [Token.wordIndex 4, Token.wordIndex 2], Exec.expand⟩]⟩, none) ∧
    evalFresh 35 ": SQ DUP * ; : QUAD SQ SQ ; 2 QUAD" =
      some (⟨[16], [], builtinWords ++
        [⟨"SQ", [Token.wordIndex 4, Token.wordIndex 2], Exec.expand⟩,
         ⟨"QUAD", [Token.wordIndex 9, Token.wordIndex 9], Exec.expand⟩]⟩, none) :=
  ⟨do_exec_eq, rfl, rfl⟩

/-- C6: when the front token is a `Word`, a successful lookup re-pushes the
resolved `WordIndex` at the front leaving stack and remaining queue unchanged
(execution deferred), and a failed lookup yields `UnknownWord`; in particular
`"FOO"` on a fresh session fails with `UnknownWord`. -/
theorem interp_word_step (st : Forth) (ci : Nat)
    (hci : lookup_word st.words ":" = some ci)
    (w : String) (rest : List Token) (hq : st.tokens = Token.word w :: rest) :
    (∀ wi, lookup_word st.words w = some wi →
       interp st = StepRes.ok ⟨st.stack, Token.wordIndex wi :: rest, st.words⟩) ∧
    (lookup_word st.words w = none →
       interp st = StepRes.err ⟨st.stack, rest, st.words⟩ Error.unknownWord) ∧
    evalFresh 1 "FOO" = some (⟨[], [], builtinWords⟩, some Error.unknownWord) := by
  obtain ⟨stk, tks, ws⟩ := st
  simp only at hq hci
  subst hq
  refine ⟨?_, ?_, rfl⟩
  · intro wi hwi
    simp only [interp, hci, hwi]
  · intro hwn
    simp only [interp, hci, hwn]

/-- C6 witness: the step on front token `Word "FOO"` in a fresh session fails
with `UnknownWord`, consuming the token. -/
theorem interp_word_step_witness :
    interp ⟨[], [Token.word "FOO"], builtinWords⟩ =
      StepRes.err ⟨[], [], builtinWords⟩ Error.unknownWord := by
  have h := interp_word_step ⟨[], [Token.word "FOO"], builtinWords⟩ 8 (by decide)
    "FOO" [] rfl
  exact h.2.1 (by decide)


/-- C3: the compiler fails only with `InvalidWord`, and exactly when the queue
does not start with a `Word` name followed by a `;`-terminated block whose
word tokens all resolve (the three failing cases: missing or non-`Word` name,
exhaustion before `;`, unresolved body word); no failure appends a table
entry; an unterminated definition with resolvable body words drains the queue
empty; `": X DUP"` on a fresh session fails with `InvalidWord` leaving the
table unchanged and the queue empty. -/
theorem compile_spec (st : Forth) :
    (∀ e, (compile st).2 = some e →
       e = Error.invalidWord ∧ (compile st).1.words = st.words) ∧
    ((compile st).2 = none ↔ ∃ name pre post,
       st.tokens = Token.word name :: (pre ++ Token.word ";" :: post) ∧
       Token.word ";" ∉ pre ∧
       ∀ n, Token.word n ∈ pre → lookup_word st.words n ≠ none) ∧
    (∀ name q, st.tokens = Token.word name :: q → Token.word ";" ∉ q →
       (∀ n, Token.word n ∈ q → lookup_word st.words n ≠ none) →
       compile st = (⟨st.stack, [], st.words⟩, some Error.invalidWord)) ∧
    evalFresh 3 ": X DUP" = some (⟨[], [], builtinWords⟩, some Error.invalidWord) := by
  obtain ⟨stk, tks, ws⟩ := st
  refine ⟨?_, ?_, ?_, rfl⟩
  · intro e he
    cases tks with
    | nil => exact ⟨(Option.some.inj he).symm, rfl⟩
    | cons t rest =>
      cases t with
      | word wname =>
        rw [compile_eq_word] at he ⊢
        exact compileLoop_err ws wname rest [] e he
      | wordIndex i => exact ⟨(Option.some.inj he).symm, rfl⟩
      | number v => exact ⟨(Option.some.inj he).symm, rfl⟩
  · cases tks with
    | nil =>
      constructor
      · intro h; exact Option.noConfusion h
      · rintro ⟨name, pre, post, habs, -, -⟩
        exact List.noConfusion habs
    | cons t rest =>
      cases t with
      | word wname =>
        rw [compile_eq_word]
        refine Iff.trans (compileLoop_none_iff ws wname rest []) ?_
        constructor
        · rintro ⟨pre, post, hq, hsep, hres⟩
          exact ⟨wname, pre, post, by rw [hq], hsep, hres⟩
        · rintro ⟨name, pre, post, hq, hsep, hres⟩
          have h1 := (List.cons.inj hq).1
          have h2 := (List.cons.inj hq).2
          exact ⟨pre, post, h2, hsep, hres⟩
      | wordIndex i =>
        constructor
        · intro h; exact Option.noConfusion h
        · rintro ⟨name, pre, post, habs, -, -⟩
          exact Token.noConfusion (List.cons.inj habs).1
      | number v =>
        constructor
        · intro h; exact Option.noConfusion h
        · rintro ⟨name, pre, post, habs, -, -⟩
          exact Token.noConfusion (List.cons.inj habs).1
  · intro name q htk hsep hres
    cases tks with
    | nil => exact List.noConfusion htk
    | cons t rest =>
      have ht : t = Token.word name := (List.cons.inj htk).1
      have hr : rest = q := (List.cons.inj htk).2
      subst ht
      subst hr
      rw [compile_eq_word, compileLoop_exhaust ws name rest [] hsep hres]

/-- C3 witness: compiling the unterminated definition body `X DUP` fails with
`InvalidWord`, drains the queue and leaves the seeded table unchanged. -/
theorem compile_spec_witness :
    compile ⟨[], [Token.word "X", Token.word "DUP"], builtinWords⟩ =
      (⟨[], [], builtinWords⟩, some Error.invalidWord) := by
  refine (compile_spec ⟨[], [Token.word "X", Token.word "DUP"], builtinWords⟩).2.2.1
    "X" [Token.word "DUP"] rfl (by decide) ?_
  intro n hn
  rw [Token.word.inj (List.mem_singleton.mp hn)]
  decide

/-- C10: during compilation of `: NAME ... ;`, an occurrence of `NAME` in the
body is resolved against the table as it stood before the new entry is
appended: with no previous definition of `NAME` compilation fails with
`InvalidWord`; with a previous definition at index `i` the occurrence is
early-bound to `WordIndex i`, an index strictly below the new entry's. -/
theorem compile_self_reference (ws : List Word) (stk : List Value) (name : String)
    (pre post : List Token) (hsep : Token.word ";" ∉ pre)
    (hmem : Token.word name ∈ pre) :
    (lookup_word ws name = none →
       (compile ⟨stk, Token.word name :: (pre ++ Token.word ";" :: post), ws⟩).2 =
         some Error.invalidWord) ∧
    (∀ i, lookup_word ws name = some i →
       (∀ n, Token.word n ∈ pre → lookup_word ws n ≠ none) →
       i < ws.length ∧
       compile ⟨stk, Token.word name :: (pre ++ Token.word ";" :: post), ws⟩ =
         (⟨stk, post, ws ++ [Word.new_compiled name (resolveBody ws pre)]⟩, none) ∧
       Token.wordIndex i ∈ resolveBody ws pre) := by
  constructor
  · intro hnone
    rw [compile_eq_word]
    cases hc : (compileLoop ws name [] (pre ++ Token.word ";" :: post)).2.2 with
    | none =>
      exfalso
      rcases (compileLoop_none_iff ws name (pre ++ Token.word ";" :: post) []).mp hc
        with ⟨pre2, post2, hq, hsep2, hres2⟩
      rcases first_occ_unique pre pre2 post post2 hq hsep hsep2 with ⟨hpp, -⟩
      exact hres2 name (hpp ▸ hmem) hnone
    | some e =>
      rw [(compileLoop_err ws name (pre ++ Token.word ";" :: post) [] e hc).1]
  · intro i hi hres
    refine ⟨lookup_word_lt_length hi, ?_, ?_⟩
    · rw [compile_eq_word, compileLoop_ok ws name pre post [] hsep hres]
      simp
    · have hrt : resolveTok ws (Token.word name) = Token.wordIndex i := by
        simp [resolveTok, hi]
      exact hrt ▸ List.mem_map_of_mem _ hmem

/-- C10 witness: compiling `: DUP DUP ;` on the seeded table binds the body
occurrence of `DUP` to the previous definition at index 4, not to the new
entry at index 9. -/
theorem compile_self_reference_witness :
    compile ⟨[], [Token.word "DUP", Token.word "DUP", Token.word ";"], builtinWords⟩ =
      (⟨[], [], builtinWords ++ [Word.new_compiled "DUP" [Token.wordIndex 4]]⟩, none) ∧
    Token.wordIndex 4 ∈ resolveBody builtinWords [Token.word "DUP"] := by
  have hres : ∀ n, Token.word n ∈ [Token.word "DUP"] →
      lookup_word builtinWords n ≠ none := by
    intro n hn
    rw [Token.word.inj (List.mem_singleton.mp hn)]
    decide
  have h := (compile_self_reference builtinWords [] "DUP" [Token.word "DUP"] []
    (by decide) (List.mem_singleton.mpr rfl)).2 4 (by decide) hres
  exact ⟨h.2.1.trans (by decide), h.2.2⟩

/-- C7 counterexample: after `": FOO : ; : : ;"` the word `:` is shadowed, so
the current lookup of `:` is index 10 while `FOO`'s compiled body still holds
`WordIndex 8`, the seeded `:` slot.  Six interpreter steps into
`": FOO : ; : : ; FOO 1 2"` the front token is that `WordIndex 8`; the step
dispatches the stored no-op behavior of the seeded entry (succeeding and
changing nothing but the queue) instead of invoking the compiler, which at
this point would fail with `InvalidWord` — so the nop bound to `:` is
executed as a behavior in a reachable state, refuting the claim. -/
theorem colon_nop_executed_cex :
    lookup_word Forth.new.words ":" = some 8 ∧
    (Forth.new.words.get ⟨8, by decide⟩) = Word.new ":" Exec.nop ∧
    stepN 6 ⟨[], parse ": FOO : ; : : ; FOO 1 2", Forth.new.words⟩ =
      some ⟨[], [Token.wordIndex 8, Token.number 1, Token.number 2],
        builtinWords ++ [⟨"FOO", [Token.wordIndex 8], Exec.expand⟩,
          ⟨":", [], Exec.expand⟩]⟩ ∧
    lookup_word (builtinWords ++ [⟨"FOO", [Token.wordIndex 8], Exec.expand⟩,
      ⟨":", [], Exec.expand⟩]) ":" = some 10 ∧
    interp ⟨[], [Token.wordIndex 8, Token.number 1, Token.number 2],
        builtinWords ++ [⟨"FOO", [Token.wordIndex 8], Exec.expand⟩,
          ⟨":", [], Exec.expand⟩]⟩ =
      StepRes.ok ⟨[], [Token.number 1, Token.number 2],
        builtinWords ++ [⟨"FOO", [Token.wordIndex 8], Exec.expand⟩,
          ⟨":", [], Exec.expand⟩]⟩ ∧
    (compile ⟨[], [Token.number 1, Token.number 2],
        builtinWords ++ [⟨"FOO", [Token.wordIndex 8], Exec.expand⟩,
          ⟨":", [], Exec.expand⟩]⟩).2 = some Error.invalidWord :=
  ⟨rfl, rfl, rfl, rfl, rfl, rfl⟩

/-- C7 (amended): the evaluator intercepts the `WordIndex` equal to the
current `lookup_word` result for `":"` and invokes the compiler on the rest
of the queue instead of dispatching the entry's behavior; only when `:` has
been shadowed can the seeded slot's no-op behavior run. -/
theorem interp_colon_intercept (st : Forth) (ci : Nat)
    (hci : lookup_word st.words ":" = some ci) (rest : List Token)
    (hq : st.tokens = Token.wordIndex ci :: rest) :
    interp st =
      (match compile ⟨st.stack, rest, st.words⟩ with
       | (st2, none) => StepRes.ok st2
       | (st2, some e) => StepRes.err st2 e) := by
  obtain ⟨stk, tks, ws⟩ := st
  simp only at hq hci
  subst hq
  simp only [interp, hci]
  exact if_pos trivial

/-- C7 amended-claim witness: on a fresh session the step on front token
`WordIndex 8` (the current `:` index) invokes the compiler, which compiles
`X ;` into a new empty-bodied word. -/
theorem interp_colon_intercept_witness :
    interp ⟨[], [Token.wordIndex 8, Token.word "X", Token.word ";"], builtinWords⟩ =
      StepRes.ok ⟨[], [], builtinWords ++ [Word.new_compiled "X" []]⟩ := by
  have h := interp_colon_intercept
    ⟨[], [Token.wordIndex 8, Token.word "X", Token.word ";"], builtinWords⟩ 8
    (by decide) [Token.word "X", Token.word ";"] rfl
  rw [h]
  decide


/-- C1 counterexample: both literals fit i32, yet `"2147483647 1 +"` leaves
`-2147483648` on the stack — the 32-bit wrapped sum, not the standard-integer
sum `2147483648` — refuting the claim for `+` at this input. -/
theorem eval_arith_wrap_cex :
    evalFresh 5 "2147483647 1 +" = some (⟨[-2147483648], [], builtinWords⟩, none) ∧
    (-2147483648 : Int) ≠ 2147483647 + 1 :=
  ⟨rfl, by decide⟩

/-- C1 (amended): for literals `a`, `b` and operator `OP` in `+ - * /`,
evaluating an input that tokenizes to `a b OP` on a fresh session succeeds
and leaves the stack holding exactly the single value `a OP b` computed in
32-bit two's-complement arithmetic (wrapping for `+ - *`, truncating division
toward zero for `/`), provided `OP` is not `/` with `b = 0` and not `/` with
`a = -2^31`, `b = -1` (which panics on overflow). -/
theorem eval_arith_literal_program (a b : Int) (op s : String)
    (hparse : parse s = [Token.number a, Token.number b, Token.word op])
    (hop : op = "+" ∨ op = "-" ∨ op = "*" ∨ op = "/")
    (hdiv : ¬(op = "/" ∧ b = 0)) (hovf : ¬(op = "/" ∧ a = i32min ∧ b = -1)) :
    evalFresh 5 s = some (⟨[arithResult op a b], [], builtinWords⟩, none) := by
  simp only [evalFresh, eval]
  rw [hparse]
  rcases hop with rfl | rfl | rfl | rfl
  · rfl
  · rfl
  · rfl
  · have hb : ¬b = 0 := fun h => hdiv ⟨rfl, h⟩
    have hov : ¬(a = i32min ∧ b = -1) := fun h => hovf ⟨rfl, h⟩
    have h1 : evalSteps 5 ⟨Forth.new.stack,
        [Token.number a, Token.number b, Token.word "/"], Forth.new.words⟩ =
        evalSteps 2 ⟨[b, a], [Token.wordIndex 3], builtinWords⟩ := rfl
    have hred : do_arithmetic (Word.new "/" Exec.arith) [b, a] [] =
        ExecRes.ok [Int.tdiv a b] [] := by
      rw [do_arithmetic_div (Word.new "/" Exec.arith) rfl b a [] [],
        if_neg hb, if_neg hov]
    have h2 : interp ⟨[b, a], [Token.wordIndex 3], builtinWords⟩ =
        StepRes.ok ⟨[Int.tdiv a b], [], builtinWords⟩ := by
      have hi : interp ⟨[b, a], [Token.wordIndex 3], builtinWords⟩ =
          (match do_arithmetic (Word.new "/" Exec.arith) [b, a] [] with
           | ExecRes.ok s q => StepRes.ok ⟨s, q, builtinWords⟩
           | ExecRes.err s q e => StepRes.err ⟨s, q, builtinWords⟩ e
           | ExecRes.abort => StepRes.abort) := rfl
      rw [hi, hred]
    have h3 : evalSteps 2 ⟨[b, a], [Token.wordIndex 3], builtinWords⟩ =
        evalSteps 1 ⟨[Int.tdiv a b], [], builtinWords⟩ := by
      have hc := congrArg
        (fun r => match r with
          | StepRes.ok st2 => evalSteps 1 st2
          | StepRes.err st2 e => some (st2, some e)
          | StepRes.abort => none) h2
      exact hc
    rw [h1, h3]
    rfl

/-- C1 witness: `"1 2 +"` leaves `[3]`, `"6 2 /"` leaves `[3]`, and
`"7 2 /"` leaves `[3]` (truncating division). -/
theorem eval_arith_literal_program_witness :
    evalFresh 5 "1 2 +" = some (⟨[3], [], builtinWords⟩, none) ∧
    evalFresh 5 "6 2 /" = some (⟨[3], [], builtinWords⟩, none) ∧
    evalFresh 5 "7 2 /" = some (⟨[3], [], builtinWords⟩, none) := by
  refine ⟨?_, ?_, ?_⟩
  · rw [eval_arith_literal_program 1 2 "+" "1 2 +" (by decide) (Or.inl rfl)
      (by decide) (by decide)]
    decide
  · rw [eval_arith_literal_program 6 2 "/" "6 2 /" (by decide)
      (Or.inr (Or.inr (Or.inr rfl))) (by decide) (by decide)]
    decide
  · rw [eval_arith_literal_program 7 2 "/" "7 2 /" (by decide)
      (Or.inr (Or.inr (Or.inr rfl))) (by decide) (by decide)]
    decide

/-- C9: `interpret` evaluates the code on a fresh session and returns, on
success, the final stack rendered top-of-stack first with each value in
decimal joined by `"<br/>"`, and on failure exactly one fixed string
determined solely by the error kind. -/
theorem interpret_spec (fuel : Nat) (code : String) :
    (∀ f : Forth, evalFresh fuel code = some (f, none) →
       interpret fuel code =
         some (String.intercalate "<br/>" (f.stack.map (fun v => toString v)))) ∧
    (∀ f : Forth, evalFresh fuel code = some (f, some Error.divisionByZero) →
       interpret fuel code = some "Error: division by zero") ∧
    (∀ f : Forth, evalFresh fuel code = some (f, some Error.stackUnderflow) →
       interpret fuel code = some "Error: stack underflow") ∧
    (∀ f : Forth, evalFresh fuel code = some (f, some Error.unknownWord) →
       interpret fuel code = some "Error: unknown word") ∧
    (∀ f : Forth, evalFresh fuel code = some (f, some Error.invalidWord) →
       interpret fuel code = some "Error: invalid word") := by
  refine ⟨?_, ?_, ?_, ?_, ?_⟩ <;> intro f h <;>
    simp [interpret, h, Forth.stackSnapshot]

/-- C9 witness: `"3 4 + 2"` renders `"2<br/>7"` (top of stack first), and
`"5 0 /"` renders the fixed division-by-zero string. -/
theorem interpret_spec_witness :
    interpret 6 "3 4 + 2" = some "2<br/>7" ∧
    interpret 5 "5 0 /" = some "Error: division by zero" := by
  constructor
  · have h := (interpret_spec 6 "3 4 + 2").1 ⟨[2, 7], [], builtinWords⟩ (by decide)
    rw [h]
    rfl
  · exact (interpret_spec 5 "5 0 /").2.1 ⟨[], [], builtinWords⟩ (by decide)

end WasmForth
